import Mathlib

/-!
Verification of the incremental playlist-to-CSV export program (main.py).

The program fetches the tracks of a remote playlist, formats each track as
a descriptor string, reconciles the batch against a persisted CSV ledger
and appends only net-new unique entries with consecutive indices.

Shallow embedding conventions:
* a CSV file is a list of rows, a row a list of cell strings;
  the filesystem state of the ledger is `Option (List Row)` where `none`
  means the file is absent and `some []` means it exists with size zero;
* the Python set `existing_entries` is modelled as a duplicate-free
  `List String` built only through `insertEntry`, so that `List.length`
  agrees with the Python `len` of the set; only membership, insertion and
  size are ever used, so the extra order carried by the list is harmless;
* the external Spotify collaborator is a function parameter returning
  `Except Unit (List PlaylistItem)`; the URL is a `List Char` and the
  Python string methods `in` and `split` are re-implemented on
  `List Char` with the CPython semantics (leftmost, non-overlapping).
-/

/-- A remote track as delivered by the fetcher: display name and the
ordered list of artist names (main.py lines 96-98). -/
structure Track where
  name : String
  artists : List String
deriving DecidableEq

/-- One item of the fetched playlist; `track` is `none` when the remote
item carries a null track (removed or local file, main.py line 94). -/
structure PlaylistItem where
  track : Option Track
deriving DecidableEq

/-- Track Descriptor: the f-string `"{name} - {artists}"` of main.py
line 99, artists joined by a comma and a space (line 98). -/
def descriptor (t : Track) : String :=
  t.name ++ " - " ++ ", ".intercalate t.artists

/-- The `track_data_raw` loop of main.py lines 91-99: null tracks are
skipped, every other item is formatted via `descriptor`. -/
def trackDataRaw (items : List PlaylistItem) : List String :=
  items.filterMap (fun item => item.track.map descriptor)

/-- A CSV row. -/
abbrev Row := List String

/-- Python `set.add`: the set is a duplicate-free list, insertion appends
the element only when it is not yet present. -/
def insertEntry (s : List String) (x : String) : List String :=
  if x ∈ s then s else s ++ [x]

/-- main.py line 105: `os.path.exists(filename) and os.path.getsize(filename) > 0`.
An absent file fails the first test, an existing empty file the second. -/
def fileHasContent : Option (List Row) → Bool
  | none => false
  | some rows => !rows.isEmpty

/-- Body of the reading loop, main.py lines 113-114: a row with at least
two columns contributes its column 1 to the set, shorter rows are ignored. -/
def readRow (acc : List String) (row : Row) : List String :=
  if 1 < row.length then insertEntry acc (row.getD 1 "") else acc

/-- The Ledger Reader, main.py lines 109-114: `next(reader, None)` drops
the first row (the header) when one is present, the remaining rows are
folded through `readRow`. -/
def readEntries (rows : List Row) : List String :=
  (rows.drop 1).foldl readRow []

/-- The merge scan, main.py lines 116-120: one left-to-right pass over the
batch; an entry not in the set is appended to `new_unique_tracks` and added
to the set. Returns `(new_unique_tracks, existing_entries)` after the scan. -/
def mergeScan (existing : List String) (batch : List String) :
    List String × List String :=
  batch.foldl
    (fun acc entry =>
      if entry ∈ acc.2 then acc
      else (acc.1 ++ [entry], insertEntry acc.2 entry))
    ([], existing)

/-- The Existing-Entries Set read at the start of a run: main.py lines
102-114 (the set stays empty unless the file exists with content). -/
def existingOf (file : Option (List Row)) : List String :=
  if fileHasContent file then readEntries (file.getD []) else []

/-- `new_unique_tracks` produced by the run (main.py line 116-119). -/
def newTracksOf (file : Option (List Row)) (batch : List String) : List String :=
  (mergeScan (existingOf file) batch).1

/-- `existing_entries` after the merge scan (main.py line 120). -/
def finalSetOf (file : Option (List Row)) (batch : List String) : List String :=
  (mergeScan (existingOf file) batch).2

/-- `start_index`, main.py lines 131-135: with a pre-existing ledger it is
`len(existing_entries) - len(new_unique_tracks) + 1` computed on the final
set, otherwise 1. Python integers are modelled as `Int`. -/
def startIndexOf (file : Option (List Row)) (batch : List String) : Int :=
  if fileHasContent file then
    ((finalSetOf file batch).length : Int) - ((newTracksOf file batch).length : Int) + 1
  else 1

/-- main.py lines 126-127: the header row is written only when the file
did not previously exist with content. -/
def headerRowsOf (file : Option (List Row)) : List Row :=
  if fileHasContent file then [] else [["Index", "Track"]]

/-- The writing loop of main.py lines 137-138: row `[start_index + idx, entry]`
for each new entry, `idx` counting up from 0 (indices rendered by the CSV
writer as decimal strings). -/
def writeRows : Int → List String → List Row
  | _, [] => []
  | i, t :: ts => [toString i, t] :: writeRows (i + 1) ts

/-- The data rows appended by a run. -/
def dataRowsOf (file : Option (List Row)) (batch : List String) : List Row :=
  writeRows (startIndexOf file batch) (newTracksOf file batch)

/-- Everything appended to the file by a run (header, then data rows). -/
def appendedRows (file : Option (List Row)) (batch : List String) : List Row :=
  headerRowsOf file ++ dataRowsOf file batch

/-- One run of the read-merge-append pipeline of main.py lines 101-141 on a
given batch of descriptor strings. Opening in mode `a` creates the file if
absent and appends otherwise.  Returns the resulting file state, the
reported count of new unique tracks (line 140) and the reported total
unique count `len(existing_entries)` (line 141). -/
def runLedgerUpdate (file : Option (List Row)) (batch : List String) :
    Option (List Row) × Nat × Nat :=
  (some (file.getD [] ++ appendedRows file batch),
   (newTracksOf file batch).length,
   (finalSetOf file batch).length)

/-- The ledger file obtained by a sequence of runs starting from an absent
file, feeding each batch through `runLedgerUpdate`. -/
def ledgerAfter (batches : List (List String)) : Option (List Row) :=
  batches.foldl (fun f batch => (runLedgerUpdate f batch).1) none

/-- Worker for the Python `str.split` method on `List Char`: scans left to
right, cutting at each leftmost non-overlapping occurrence of `sep`.
`acc` holds the current piece reversed; the fuel argument is initialised
with the length of the string, which bounds the number of steps. -/
def splitGo (sep : List Char) : Nat → List Char → List Char → List (List Char)
  | _, acc, [] => [acc.reverse]
  | 0, acc, s => [acc.reverse ++ s]
  | fuel + 1, acc, c :: rest =>
    if sep.isPrefixOf (c :: rest) then
      acc.reverse :: splitGo sep fuel [] (rest.drop (sep.length - 1))
    else
      splitGo sep fuel (c :: acc) rest

/-- Python `s.split(sep)` for a non-empty separator (CPython raises on an
empty separator; the program only splits on `"playlist/"` and `"?"`, so
the guard branch is never taken and merely keeps the function total). -/
def splitOnList (s sep : List Char) : List (List Char) :=
  if sep.isEmpty then [s] else splitGo sep s.length [] s

/-- Python `pat in s` substring test on `List Char`. -/
def containsSub (pat : List Char) : List Char → Bool
  | [] => pat.isPrefixOf []
  | s@(_ :: rest) => pat.isPrefixOf s || containsSub pat rest

/-- The prefix of `s` that precedes the first occurrence of `pat`
(all of `s` when `pat` does not occur). Specification-side helper used to
state what the split-based extraction computes. -/
def upToFirst (pat : List Char) : List Char → List Char
  | [] => []
  | s@(c :: rest) => if pat.isPrefixOf s then [] else c :: upToFirst pat rest

/-- The suffix of `s` that follows the first occurrence of `pat`, or
`none` when `pat` does not occur.  Specification-side helper. -/
def afterFirst (pat : List Char) : List Char → Option (List Char)
  | [] => if pat.isPrefixOf [] then some [] else none
  | s@(c :: rest) =>
    if pat.isPrefixOf s then some ((c :: rest).drop pat.length)
    else afterFirst pat rest

/-- The validation marker of main.py line 66. -/
def domainMarker : List Char := "open.spotify.com/playlist/".toList

/-- The separator of the first split, main.py line 72. -/
def playlistMarker : List Char := "playlist/".toList

/-- The separator of the second split, main.py line 72. -/
def qMarker : List Char := "?".toList

/-- main.py line 72: `playlist_url.split("playlist/")[1].split("?")[0]`.
Evaluates to `none` exactly when the `[1]` subscript would raise
`IndexError` (the branch reported as a malformed-id error, lines 73-75). -/
def codePlaylistId (url : List Char) : Option (List Char) :=
  match (splitOnList url playlistMarker).get? 1 with
  | none => none
  | some piece => some ((splitOnList piece qMarker).getD 0 [])

/-- Modelled from the spec words for the URL parser: the Playlist ID is
the substring between `playlist/` and the next `?`, or to the end of the
string if there is no `?` (refinement comparison for the extraction). -/
def specPlaylistId (url : List Char) : Option (List Char) :=
  (afterFirst playlistMarker url).map (fun t => upToFirst qMarker t)

/-- Outcome of one invocation of `extract_playlist_tracks`. -/
inductive Outcome where
  | invalidUrl
  | malformedId
  | fetchError
  | success (newCount : Nat) (totalCount : Nat)
deriving DecidableEq

/-- The whole `extract_playlist_tracks` function, main.py lines 64-141.
The Spotify collaborator is the `fetcher` parameter; `Except.error` stands
for the `SpotifyException` caught at lines 86-89.  Returns the ledger file
state after the call together with the observable outcome. -/
def extract_playlist_tracks (url : List Char)
    (fetcher : List Char → Except Unit (List PlaylistItem))
    (file : Option (List Row)) : Option (List Row) × Outcome :=
  if containsSub domainMarker url = false then (file, Outcome.invalidUrl)
  else
    match codePlaylistId url with
    | none => (file, Outcome.malformedId)
    | some pid =>
      match fetcher pid with
      | Except.error _ => (file, Outcome.fetchError)
      | Except.ok items =>
        let r := runLedgerUpdate file (trackDataRaw items)
        (r.1, Outcome.success r.2.1 r.2.2)

/-- Specification-side description of the merge scan: keep the elements
not in `seen`, and of in-batch repeats keep only the first occurrence,
in input order. -/
def dedupFirst (seen : List String) : List String → List String
  | [] => []
  | x :: xs => if x ∈ seen then dedupFirst seen xs else x :: dedupFirst (x :: seen) xs

/-- Shape invariant of a ledger file reachable by runs from an absent
file: either still absent, or the header row followed by the rows
(1, t1), (2, t2), ... for some duplicate-free track list. -/
def goodLedger (f : Option (List Row)) : Prop :=
  f = none ∨ ∃ ts : List String, ts.Nodup ∧ f = some (["Index", "Track"] :: writeRows 1 ts)

theorem mem_insertEntry (s : List String) (x y : String) :
    y ∈ insertEntry s x ↔ y ∈ s ∨ y = x := by
  unfold insertEntry
  by_cases h : x ∈ s
  · simp only [h, if_true]
    constructor
    · exact fun hy => Or.inl hy
    · rintro (hy | rfl)
      · exact hy
      · exact h
  · simp [h]

theorem insertEntry_of_mem (s : List String) (x : String) (h : x ∈ s) :
    insertEntry s x = s := by
  simp [insertEntry, h]

theorem insertEntry_of_not_mem (s : List String) (x : String) (h : x ∉ s) :
    insertEntry s x = s ++ [x] := by
  simp [insertEntry, h]

theorem dedupFirst_congr (l : List String) :
    ∀ s t : List String, (∀ y, y ∈ s ↔ y ∈ t) → dedupFirst s l = dedupFirst t l := by
  induction l with
  | nil => intro s t _; rfl
  | cons x xs ih =>
    intro s t hst
    by_cases hx : x ∈ s
    · have hx' : x ∈ t := (hst x).mp hx
      simp only [dedupFirst, hx, hx', if_true]
      exact ih s t hst
    · have hx' : x ∉ t := fun h => hx ((hst x).mpr h)
      simp only [dedupFirst, hx, hx', if_false]
      refine congrArg _ (ih (x :: s) (x :: t) ?_)
      intro y
      simp only [List.mem_cons]
      exact or_congr Iff.rfl (hst y)

theorem mem_dedupFirst (l : List String) :
    ∀ (seen : List String) (x : String),
      x ∈ dedupFirst seen l ↔ x ∈ l ∧ x ∉ seen := by
  induction l with
  | nil => intro seen x; simp [dedupFirst]
  | cons y ys ih =>
    intro seen x
    by_cases hy : y ∈ seen
    · simp only [dedupFirst, hy, if_true, ih, List.mem_cons]
      constructor
      · rintro ⟨hx, hns⟩; exact ⟨Or.inr hx, hns⟩
      · rintro ⟨hx | hx, hns⟩
        · exact absurd (hx ▸ hy) hns
        · exact ⟨hx, hns⟩
    · simp only [dedupFirst, hy, if_false, List.mem_cons, ih]
      constructor
      · rintro (rfl | ⟨hx, hns⟩)
        · exact ⟨Or.inl rfl, hy⟩
        · exact ⟨Or.inr hx, fun h => hns (Or.inr h)⟩
      · rintro ⟨hx | hx, hns⟩
        · exact Or.inl hx
        · by_cases hxy : x = y
          · exact Or.inl hxy
          · exact Or.inr ⟨hx, fun h => h.elim hxy hns⟩

theorem dedupFirst_sublist (l : List String) :
    ∀ seen : List String, List.Sublist (dedupFirst seen l) l := by
  induction l with
  | nil => intro seen; simp [dedupFirst]
  | cons y ys ih =>
    intro seen
    by_cases hy : y ∈ seen
    · simp only [dedupFirst, hy, if_true]
      exact List.Sublist.cons y (ih seen)
    · simp only [dedupFirst, hy, if_false]
      exact List.Sublist.cons₂ y (ih (y :: seen))

theorem dedupFirst_nodup (l : List String) :
    ∀ seen : List String, (dedupFirst seen l).Nodup := by
  induction l with
  | nil => intro seen; simp [dedupFirst]
  | cons y ys ih =>
    intro seen
    by_cases hy : y ∈ seen
    · simp only [dedupFirst, hy, if_true]; exact ih seen
    · simp only [dedupFirst, hy, if_false]
      refine List.nodup_cons.mpr ⟨?_, ih (y :: seen)⟩
      intro hmem
      exact ((mem_dedupFirst ys (y :: seen) y).mp hmem).2 (List.mem_cons_self y seen)

theorem dedupFirst_eq_nil (l : List String) :
    ∀ seen : List String, (∀ x ∈ l, x ∈ seen) → dedupFirst seen l = [] := by
  induction l with
  | nil => intro seen _; rfl
  | cons y ys ih =>
    intro seen h
    have hy : y ∈ seen := h y (List.mem_cons_self y ys)
    simp only [dedupFirst, hy, if_true]
    exact ih seen (fun x hx => h x (List.mem_cons_of_mem _ hx))

theorem mergeScan_go (b : List String) :
    ∀ new s : List String,
      b.foldl
        (fun acc entry =>
          if entry ∈ acc.2 then acc
          else (acc.1 ++ [entry], insertEntry acc.2 entry))
        (new, s)
      = (new ++ dedupFirst s b, s ++ dedupFirst s b) := by
  induction b with
  | nil => intro new s; simp [dedupFirst]
  | cons x xs ih =>
    intro new s
    by_cases hx : x ∈ s
    · simp only [List.foldl_cons, hx, if_true, dedupFirst]
      exact ih new s
    · simp only [List.foldl_cons, hx, if_false, dedupFirst]
      rw [insertEntry_of_not_mem s x hx, ih (new ++ [x]) (s ++ [x])]
      have hsets : dedupFirst (s ++ [x]) xs = dedupFirst (x :: s) xs := by
        refine dedupFirst_congr xs (s ++ [x]) (x :: s) ?_
        intro y; simp [List.mem_append, List.mem_cons, or_comm]
      rw [hsets]
      simp [List.append_assoc]

theorem mergeScan_eq (s b : List String) :
    mergeScan s b = (dedupFirst s b, s ++ dedupFirst s b) := by
  unfold mergeScan
  simpa using mergeScan_go b [] s

theorem writeRows_append (a : List String) :
    ∀ (i : Int) (b : List String),
      writeRows i (a ++ b) = writeRows i a ++ writeRows (i + a.length) b := by
  induction a with
  | nil => intro i b; simp [writeRows]
  | cons t ts ih =>
    intro i b
    have hidx : i + 1 + (ts.length : Int) = i + ((ts.length : Int) + 1) := by ring
    simp only [List.cons_append, writeRows, List.length_cons, Nat.cast_add, Nat.cast_one,
      List.append_eq]
    rw [ih (i + 1) b, hidx]

theorem writeRows_length (ts : List String) :
    ∀ i : Int, (writeRows i ts).length = ts.length := by
  induction ts with
  | nil => intro i; rfl
  | cons t ts ih => intro i; simp only [writeRows, List.length_cons, ih]

theorem writeRows_map_track (ts : List String) :
    ∀ i : Int, (writeRows i ts).map (fun r => r.getD 1 "") = ts := by
  induction ts with
  | nil => intro i; rfl
  | cons t ts ih =>
    intro i
    simp only [writeRows, List.map_cons, ih (i + 1), List.getD_cons_succ,
      List.getD_cons_zero]

theorem writeRows_map_index (ts : List String) :
    ∀ i : Int,
      (writeRows i ts).map (fun r => r.getD 0 "") =
        (List.range ts.length).map (fun (k : Nat) => toString (i + (k : Int))) := by
  induction ts with
  | nil => intro i; rfl
  | cons t ts ih =>
    intro i
    rw [writeRows, List.map_cons, ih (i + 1), List.length_cons,
      List.range_succ_eq_map, List.map_cons, List.map_map]
    refine congrArg₂ _ (by simp) ?_
    refine congrArg (fun f => List.map f (List.range ts.length)) ?_
    funext k
    simp only [Function.comp_apply]
    refine congrArg toString ?_
    push_cast
    ring

theorem writeRows_eq_range_map (ts : List String) :
    ∀ i : Int,
      writeRows i ts =
        (List.range ts.length).map
          (fun (k : Nat) => [toString (i + (k : Int)), ts.getD k ""]) := by
  induction ts with
  | nil => intro i; rfl
  | cons t ts ih =>
    intro i
    rw [writeRows, ih (i + 1), List.length_cons, List.range_succ_eq_map,
      List.map_cons, List.map_map]
    refine congrArg₂ _ (by simp) ?_
    refine congrArg (fun f => List.map f (List.range ts.length)) ?_
    funext k
    simp only [Function.comp_apply, List.getD_cons_succ]
    refine congrArg₂ _ (congrArg toString ?_) rfl
    push_cast
    ring

theorem foldl_readRow_writeRows (ts : List String) :
    ∀ (i : Int) (acc : List String), (∀ t ∈ ts, t ∉ acc) → ts.Nodup →
      List.foldl readRow acc (writeRows i ts) = acc ++ ts := by
  induction ts with
  | nil => intro i acc _ _; simp [writeRows]
  | cons t ts ih =>
    intro i acc hdisj hnd
    have ht : t ∉ acc := hdisj t (List.mem_cons_self t ts)
    have hstep : readRow acc [toString i, t] = acc ++ [t] := by
      simp [readRow, insertEntry_of_not_mem acc t ht]
    simp only [writeRows, List.foldl_cons, hstep]
    rw [ih (i + 1) (acc ++ [t]) ?_ (List.Nodup.of_cons hnd)]
    · simp
    · intro u hu
      simp only [List.mem_append, List.mem_singleton]
      rintro (hua | rfl)
      · exact hdisj u (List.mem_cons_of_mem _ hu) hua
      · exact (List.nodup_cons.mp hnd).1 hu

theorem mem_foldl_readRow (l : List Row) :
    ∀ (acc : List String) (x : String),
      x ∈ List.foldl readRow acc l ↔
        x ∈ acc ∨ ∃ row, row ∈ l ∧ 1 < row.length ∧ row.getD 1 "" = x := by
  induction l with
  | nil => intro acc x; simp
  | cons r l ih =>
    intro acc x
    simp only [List.foldl_cons, ih, List.mem_cons]
    by_cases hr : 1 < r.length
    · simp only [readRow, hr, if_true, mem_insertEntry]
      constructor
      · rintro ((hx | rfl) | ⟨row, hrow, hlen, hval⟩)
        · exact Or.inl hx
        · exact Or.inr ⟨r, Or.inl rfl, hr, rfl⟩
        · exact Or.inr ⟨row, Or.inr hrow, hlen, hval⟩
      · rintro (hx | ⟨row, rfl | hrow, hlen, hval⟩)
        · exact Or.inl (Or.inl hx)
        · exact Or.inl (Or.inr hval.symm)
        · exact Or.inr ⟨row, hrow, hlen, hval⟩
    · simp only [readRow, hr, if_false]
      constructor
      · rintro (hx | ⟨row, hrow, hlen, hval⟩)
        · exact Or.inl hx
        · exact Or.inr ⟨row, Or.inr hrow, hlen, hval⟩
      · rintro (hx | ⟨row, rfl | hrow, hlen, hval⟩)
        · exact Or.inl hx
        · exact absurd hlen hr
        · exact Or.inr ⟨row, hrow, hlen, hval⟩

theorem newTracksOf_eq (file : Option (List Row)) (batch : List String) :
    newTracksOf file batch = dedupFirst (existingOf file) batch := by
  simp [newTracksOf, mergeScan_eq]

theorem finalSetOf_eq (file : Option (List Row)) (batch : List String) :
    finalSetOf file batch = existingOf file ++ newTracksOf file batch := by
  simp [finalSetOf, newTracksOf, mergeScan_eq]

theorem newTracksOf_nodup (file : Option (List Row)) (batch : List String) :
    (newTracksOf file batch).Nodup := by
  rw [newTracksOf_eq]; exact dedupFirst_nodup batch (existingOf file)

theorem newTracksOf_disjoint (file : Option (List Row)) (batch : List String) :
    ∀ t ∈ newTracksOf file batch, t ∉ existingOf file := by
  intro t ht
  rw [newTracksOf_eq] at ht
  exact ((mem_dedupFirst batch (existingOf file) t).mp ht).2

theorem file_shape_of_content (file : Option (List Row))
    (hfe : fileHasContent file = true) : ∃ r rows, file = some (r :: rows) := by
  match file with
  | none => simp [fileHasContent] at hfe
  | some [] => simp [fileHasContent] at hfe
  | some (r :: rows) => exact ⟨r, rows, rfl⟩

theorem getD_of_no_content (file : Option (List Row))
    (hfe : ¬ fileHasContent file = true) : file.getD [] = [] := by
  match file with
  | none => rfl
  | some [] => rfl
  | some (r :: rows) => simp [fileHasContent] at hfe

theorem run_read_back (file : Option (List Row)) (batch : List String) :
    fileHasContent (runLedgerUpdate file batch).1 = true ∧
      readEntries ((runLedgerUpdate file batch).1.getD []) = finalSetOf file batch := by
  by_cases hfe : fileHasContent file = true
  · obtain ⟨r, rows, rfl⟩ := file_shape_of_content file hfe
    have hex : existingOf (some (r :: rows)) = readEntries (r :: rows) := by
      simp [existingOf, hfe]
    have happ : appendedRows (some (r :: rows)) batch =
        writeRows (startIndexOf (some (r :: rows)) batch)
          (newTracksOf (some (r :: rows)) batch) := by
      simp [appendedRows, headerRowsOf, hfe, dataRowsOf]
    constructor
    · simp [runLedgerUpdate, fileHasContent]
    · simp only [runLedgerUpdate, Option.getD_some, happ]
      rw [readEntries, List.cons_append, List.drop_succ_cons, List.drop_zero,
        List.foldl_append]
      have hread : List.foldl readRow [] rows = readEntries (r :: rows) := by
        rw [readEntries, List.drop_succ_cons, List.drop_zero]
      rw [hread,
        foldl_readRow_writeRows _ _ _
          (fun t ht => hex ▸ newTracksOf_disjoint (some (r :: rows)) batch t ht)
          (newTracksOf_nodup (some (r :: rows)) batch),
        finalSetOf_eq, hex]
  · have h0 : file.getD [] = [] := getD_of_no_content file hfe
    have hex : existingOf file = [] := by simp [existingOf, hfe]
    have happ : appendedRows file batch =
        ["Index", "Track"] :: writeRows 1 (newTracksOf file batch) := by
      simp [appendedRows, headerRowsOf, hfe, dataRowsOf, startIndexOf]
    constructor
    · simp [runLedgerUpdate, h0, happ, fileHasContent]
    · simp only [runLedgerUpdate, Option.getD_some, h0, happ, List.nil_append]
      rw [readEntries, List.drop_succ_cons, List.drop_zero,
        foldl_readRow_writeRows _ _ _ (fun t _ h => List.not_mem_nil t h)
          (newTracksOf_nodup file batch),
        finalSetOf_eq, hex]

/-- Claim C1: the merge scan keeps exactly the batch entries not in the
initial set, only at their first in-batch occurrence, in first-occurrence
order (a duplicate-free subsequence of the batch); for the batch
[A, B, A, C] against an empty ledger the appended rows are exactly
(1, A), (2, B), (3, C). -/
theorem claim_C1_merge_first_occurrence :
    (∀ s b, (mergeScan s b).1 = dedupFirst s b) ∧
    (∀ s b, List.Sublist (mergeScan s b).1 b) ∧
    (∀ s b x, x ∈ (mergeScan s b).1 ↔ x ∈ b ∧ x ∉ s) ∧
    (∀ s b, ((mergeScan s b).1).Nodup) ∧
    runLedgerUpdate none ["A", "B", "A", "C"] =
      (some [["Index", "Track"], ["1", "A"], ["2", "B"], ["3", "C"]], 3, 3) := by
  refine ⟨?_, ?_, ?_, ?_, by decide⟩
  · intro s b; rw [mergeScan_eq]
  · intro s b; rw [mergeScan_eq]; exact dedupFirst_sublist b s
  · intro s b x; rw [mergeScan_eq]; exact mem_dedupFirst b s x
  · intro s b; rw [mergeScan_eq]; exact dedupFirst_nodup b s

/-- Claim C2: with a pre-existing non-empty ledger the starting index
(final set size minus new-track count plus one) is one past the number of
distinct entries present at the start; with no prior ledger it is 1; new
rows carry consecutive integers from that start; the cross-run example
appends exactly (3, C) for batch [B, C] over ledger (1, A), (2, B). -/
theorem claim_C2_index_assignment :
    (∀ (file : Option (List Row)) (batch : List String),
      startIndexOf file batch =
        if fileHasContent file then ((existingOf file).length : Int) + 1 else 1) ∧
    (∀ (file : Option (List Row)) (batch : List String),
      dataRowsOf file batch =
        (List.range (newTracksOf file batch).length).map
          (fun (k : Nat) =>
            [toString (startIndexOf file batch + (k : Int)),
             (newTracksOf file batch).getD k ""])) ∧
    runLedgerUpdate (some [["Index", "Track"], ["1", "A"], ["2", "B"]]) ["B", "C"] =
      (some [["Index", "Track"], ["1", "A"], ["2", "B"], ["3", "C"]], 1, 3) := by
  refine ⟨?_, ?_, by decide⟩
  · intro file batch
    cases hfe : fileHasContent file with
    | true =>
      simp only [startIndexOf, hfe, if_true, finalSetOf_eq, List.length_append]
      push_cast
      ring
    | false => simp [startIndexOf, hfe]
  · intro file batch
    rw [dataRowsOf, writeRows_eq_range_map]

/-- Claim C3: running the read-merge-append pipeline a second time with
the same batch against the file produced by the first run appends nothing,
reports 0 new tracks and reports the same total unique count. -/
theorem claim_C3_idempotent :
    ∀ (file : Option (List Row)) (batch : List String),
      runLedgerUpdate ((runLedgerUpdate file batch).1) batch =
        ((runLedgerUpdate file batch).1, 0, (runLedgerUpdate file batch).2.2) := by
  intro file batch
  obtain ⟨hfc, hread⟩ := run_read_back file batch
  have hex2 : existingOf (runLedgerUpdate file batch).1 = finalSetOf file batch := by
    rw [existingOf, if_pos hfc, hread]
  have hnew2 : newTracksOf (runLedgerUpdate file batch).1 batch = [] := by
    rw [newTracksOf_eq, hex2]
    apply dedupFirst_eq_nil
    intro x hx
    rw [finalSetOf_eq]
    by_cases hxe : x ∈ existingOf file
    · exact List.mem_append_left _ hxe
    · refine List.mem_append_right _ ?_
      rw [newTracksOf_eq]
      exact (mem_dedupFirst batch _ x).mpr ⟨hx, hxe⟩
  have hfin2 : finalSetOf (runLedgerUpdate file batch).1 batch = finalSetOf file batch := by
    rw [finalSetOf_eq, hnew2, hex2, List.append_nil]
  have happ2 : appendedRows (runLedgerUpdate file batch).1 batch = [] := by
    simp [appendedRows, headerRowsOf, hfc, dataRowsOf, hnew2, writeRows]
  obtain ⟨r, rows, hrows⟩ := file_shape_of_content _ hfc
  show (some ((runLedgerUpdate file batch).1.getD [] ++
      appendedRows (runLedgerUpdate file batch).1 batch),
    (newTracksOf (runLedgerUpdate file batch).1 batch).length,
    (finalSetOf (runLedgerUpdate file batch).1 batch).length) = _
  rw [happ2, hnew2, hfin2, hrows]
  simp [runLedgerUpdate]

/-- Claim C5: the Ledger Reader skips the first (header) row when one is
present, inserts column 1 of every remaining row having at least two
columns, ignores shorter rows, and an absent file yields the empty set
(reported as no existing ledger). -/
theorem claim_C5_ledger_reader :
    (∀ (rows : List Row) (x : String),
      x ∈ readEntries rows ↔
        ∃ row, row ∈ rows.drop 1 ∧ 1 < row.length ∧ row.getD 1 "" = x) ∧
    existingOf none = [] ∧ fileHasContent none = false := by
  refine ⟨?_, rfl, rfl⟩
  intro rows x
  rw [readEntries, mem_foldl_readRow]
  simp

/-- Claim C8: the descriptor batch handed to the merge is exactly, in
fetch order, the string "name - artists" (artists joined by a comma and a
space) of every item with a non-null track; null tracks are dropped before
the merge and have no effect on the run. -/
theorem claim_C8_descriptor_format :
    (∀ items, trackDataRaw items =
      (items.filterMap (fun item => item.track)).map descriptor) ∧
    (∀ pre post : List PlaylistItem,
      trackDataRaw (pre ++ (⟨none⟩ : PlaylistItem) :: post) =
        trackDataRaw (pre ++ post)) ∧
    (∀ (file : Option (List Row)) (pre post : List PlaylistItem),
      runLedgerUpdate file (trackDataRaw (pre ++ (⟨none⟩ : PlaylistItem) :: post)) =
        runLedgerUpdate file (trackDataRaw (pre ++ post))) ∧
    trackDataRaw [(⟨some ⟨"SongOne", ["Alice", "Bob"]⟩⟩ : PlaylistItem),
        (⟨none⟩ : PlaylistItem), (⟨some ⟨"SongTwo", ["Cara"]⟩⟩ : PlaylistItem)] =
      ["SongOne - Alice, Bob", "SongTwo - Cara"] := by
  have h2 : ∀ pre post : List PlaylistItem,
      trackDataRaw (pre ++ (⟨none⟩ : PlaylistItem) :: post) =
        trackDataRaw (pre ++ post) := by
    intro pre post
    simp [trackDataRaw, List.filterMap_append]
  refine ⟨?_, h2, fun file pre post => by rw [h2], by decide⟩
  intro items
  rw [trackDataRaw, List.map_filterMap]

/-- Claim C9: a ledger file that exists with size zero is handled exactly
like an absent one: the set starts empty, the header row is written and
indexing starts at 1. -/
theorem claim_C9_empty_file_like_absent :
    ∀ batch : List String,
      runLedgerUpdate (some ([] : List Row)) batch = runLedgerUpdate none batch ∧
      existingOf (some ([] : List Row)) = [] ∧
      startIndexOf (some ([] : List Row)) batch = 1 ∧
      headerRowsOf (some ([] : List Row)) = [["Index", "Track"]] := by
  intro batch
  exact ⟨rfl, rfl, rfl, rfl⟩

theorem goodLedger_step (f : Option (List Row)) (batch : List String)
    (h : goodLedger f) : goodLedger (runLedgerUpdate f batch).1 := by
  rcases h with rfl | ⟨ts, hnd, rfl⟩
  · right
    refine ⟨newTracksOf none batch, newTracksOf_nodup none batch, ?_⟩
    show some ((none : Option (List Row)).getD [] ++ appendedRows none batch) = _
    simp [appendedRows, headerRowsOf, dataRowsOf, startIndexOf, fileHasContent]
  · right
    have hfe : fileHasContent (some (["Index", "Track"] :: writeRows 1 ts)) = true := rfl
    have hex : existingOf (some (["Index", "Track"] :: writeRows 1 ts)) = ts := by
      rw [existingOf, if_pos hfe]
      simp only [Option.getD_some]
      rw [readEntries, List.drop_succ_cons, List.drop_zero,
        foldl_readRow_writeRows ts 1 [] (fun t _ h => List.not_mem_nil t h) hnd,
        List.nil_append]
    have hnd2 : (ts ++ newTracksOf (some (["Index", "Track"] :: writeRows 1 ts)) batch).Nodup := by
      refine List.Nodup.append hnd (newTracksOf_nodup _ batch) ?_
      intro a ha hb
      refine newTracksOf_disjoint _ batch a hb ?_
      rw [hex]
      exact ha
    refine ⟨_, hnd2, ?_⟩
    have hstart : startIndexOf (some (["Index", "Track"] :: writeRows 1 ts)) batch =
        1 + (ts.length : Int) := by
      rw [startIndexOf, if_pos hfe, finalSetOf_eq, hex, List.length_append]
      push_cast
      ring
    have happ : appendedRows (some (["Index", "Track"] :: writeRows 1 ts)) batch =
        writeRows (1 + (ts.length : Int))
          (newTracksOf (some (["Index", "Track"] :: writeRows 1 ts)) batch) := by
      simp [appendedRows, headerRowsOf, hfe, dataRowsOf, hstart]
    show some ((["Index", "Track"] :: writeRows 1 ts) ++
        appendedRows (some (["Index", "Track"] :: writeRows 1 ts)) batch) = _
    rw [happ, writeRows_append ts 1 _]
    simp

theorem goodLedger_foldl (bs : List (List String)) :
    ∀ f, goodLedger f →
      goodLedger (bs.foldl (fun f batch => (runLedgerUpdate f batch).1) f) := by
  induction bs with
  | nil => intro f h; exact h
  | cons b bs ih => intro f h; exact ih _ (goodLedger_step f b h)

theorem goodLedger_after (batches : List (List String)) :
    goodLedger (ledgerAfter batches) :=
  goodLedger_foldl batches none (Or.inl rfl)

/-- Claim C4: after any sequence of runs from an absent ledger, the data
rows of the ledger carry pairwise distinct Track Descriptors and their
index column is exactly "1", "2", ..., "N" in order, N the number of data
rows (the total unique-track count). -/
theorem claim_C4_ledger_invariants :
    ∀ (batches : List (List String)) (rows : List Row),
      ledgerAfter batches = some rows →
      ((rows.drop 1).map (fun r => r.getD 1 "")).Nodup ∧
      (rows.drop 1).map (fun r => r.getD 0 "") =
        (List.range (rows.drop 1).length).map
          (fun (k : Nat) => toString ((k : Int) + 1)) := by
  intro batches rows hrows
  rcases goodLedger_after batches with hnone | ⟨ts, hnd, hsome⟩
  · rw [hnone] at hrows; cases hrows
  · rw [hsome] at hrows
    injection hrows with hrows
    rw [← hrows, List.drop_succ_cons, List.drop_zero]
    constructor
    · rw [writeRows_map_track]
      exact hnd
    · rw [writeRows_map_index, writeRows_length]
      refine congrArg (fun f => List.map f (List.range ts.length)) ?_
      funext k
      rw [Int.add_comm]

/-- Witness for C4 at the concrete run sequence with single batch [A]. -/
theorem claim_C4_ledger_invariants_witness :
    ((([["Index", "Track"], ["1", "A"]] : List Row).drop 1).map
        (fun r => r.getD 1 "")).Nodup ∧
    (([["Index", "Track"], ["1", "A"]] : List Row).drop 1).map (fun r => r.getD 0 "") =
      (List.range (([["Index", "Track"], ["1", "A"]] : List Row).drop 1).length).map
        (fun (k : Nat) => toString ((k : Int) + 1)) :=
  claim_C4_ledger_invariants [["A"]] [["Index", "Track"], ["1", "A"]] (by decide)

theorem splitGo_ne_nil (sep : List Char) :
    ∀ (fuel : Nat) (acc s : List Char), splitGo sep fuel acc s ≠ [] := by
  intro fuel
  induction fuel with
  | zero => intro acc s; cases s <;> simp [splitGo]
  | succ fuel ih =>
    intro acc s
    cases s with
    | nil => simp [splitGo]
    | cons c rest =>
      cases h : sep.isPrefixOf (c :: rest) with
      | true => simp [splitGo, h]
      | false =>
        simp only [splitGo, h, Bool.false_eq_true, if_false]
        exact ih (c :: acc) rest

theorem splitGo_head (sep : List Char) :
    ∀ (fuel : Nat) (acc s : List Char), s.length ≤ fuel →
      (splitGo sep fuel acc s).getD 0 [] = acc.reverse ++ upToFirst sep s := by
  intro fuel
  induction fuel with
  | zero =>
    intro acc s hs
    have hnil : s = [] := List.eq_nil_of_length_eq_zero (Nat.le_zero.mp hs)
    subst hnil
    simp [splitGo, upToFirst]
  | succ fuel ih =>
    intro acc s hs
    cases s with
    | nil => simp [splitGo, upToFirst]
    | cons c rest =>
      cases h : sep.isPrefixOf (c :: rest) with
      | true => simp [splitGo, h, upToFirst]
      | false =>
        simp only [splitGo, h, Bool.false_eq_true, if_false, upToFirst]
        rw [ih (c :: acc) rest (Nat.le_of_succ_le_succ hs)]
        simp

theorem list_get?_zero_of_ne_nil (l : List (List Char)) (h : l ≠ []) :
    l.get? 0 = some (l.getD 0 []) := by
  cases l with
  | nil => exact absurd rfl h
  | cons a l => rfl

theorem splitGo_get1 (sep : List Char) (hsep : sep ≠ []) :
    ∀ (fuel : Nat) (acc s : List Char), s.length ≤ fuel →
      (splitGo sep fuel acc s).get? 1 =
        (afterFirst sep s).map (fun t => upToFirst sep t) := by
  intro fuel
  induction fuel with
  | zero =>
    intro acc s hs
    have hnil : s = [] := List.eq_nil_of_length_eq_zero (Nat.le_zero.mp hs)
    subst hnil
    cases sep with
    | nil => exact absurd rfl hsep
    | cons a as => simp [splitGo, afterFirst, List.isPrefixOf]
  | succ fuel ih =>
    intro acc s hs
    cases s with
    | nil =>
      cases sep with
      | nil => exact absurd rfl hsep
      | cons a as => simp [splitGo, afterFirst, List.isPrefixOf]
    | cons c rest =>
      cases h : sep.isPrefixOf (c :: rest) with
      | true =>
        simp only [splitGo, h, if_true, afterFirst]
        rw [List.get?_cons_succ,
          list_get?_zero_of_ne_nil _ (splitGo_ne_nil sep fuel [] _),
          splitGo_head sep fuel [] _ ?_]
        · have hdrop : (c :: rest).drop sep.length = rest.drop (sep.length - 1) := by
            obtain ⟨a, as, rfl⟩ : ∃ a as, sep = a :: as := by
              cases sep with
              | nil => exact absurd rfl hsep
              | cons a as => exact ⟨a, as, rfl⟩
            simp [List.drop_succ_cons]
          rw [hdrop]
          simp
        · calc (rest.drop (sep.length - 1)).length ≤ rest.length := by
                rw [List.length_drop]; omega
            _ ≤ fuel := Nat.le_of_succ_le_succ hs
      | false =>
        simp only [splitGo, h, Bool.false_eq_true, if_false, afterFirst]
        exact ih (c :: acc) rest (Nat.le_of_succ_le_succ hs)

theorem containsSub_of_isPrefixOf_append (b : List Char) :
    ∀ (a s : List Char), (a ++ b).isPrefixOf s = true → containsSub b s = true := by
  intro a
  induction a with
  | nil =>
    intro s h
    rw [List.nil_append] at h
    cases s with
    | nil => simpa [containsSub] using h
    | cons c s' => simp [containsSub, h]
  | cons x a' ih =>
    intro s h
    cases s with
    | nil => simp [List.isPrefixOf] at h
    | cons c s' =>
      have h' : (a' ++ b).isPrefixOf s' = true := by
        rw [List.cons_append, List.isPrefixOf, Bool.and_eq_true] at h
        exact h.2
      simp [containsSub, ih s' h']

theorem containsSub_append_left (b a : List Char) :
    ∀ s, containsSub (a ++ b) s = true → containsSub b s = true := by
  intro s
  induction s with
  | nil =>
    intro h
    exact containsSub_of_isPrefixOf_append b a [] h
  | cons c rest ih =>
    intro h
    rw [containsSub, Bool.or_eq_true] at h
    rcases h with h1 | h2
    · exact containsSub_of_isPrefixOf_append b a _ h1
    · simp [containsSub, ih h2]

theorem afterFirst_isSome_of_containsSub (pat : List Char) :
    ∀ s, containsSub pat s = true → (afterFirst pat s).isSome = true := by
  intro s
  induction s with
  | nil =>
    intro h
    rw [containsSub] at h
    simp [afterFirst, h]
  | cons c rest ih =>
    intro h
    cases hp : pat.isPrefixOf (c :: rest) with
    | true => simp [afterFirst, hp]
    | false =>
      have h2 : containsSub pat rest = true := by
        rw [containsSub, Bool.or_eq_true] at h
        rcases h with h1 | h2
        · exact absurd h1 (by simp [hp])
        · exact h2
      simp [afterFirst, hp, ih h2]

theorem splitOn_get1 (url : List Char) :
    (splitOnList url playlistMarker).get? 1 =
      (afterFirst playlistMarker url).map (fun t => upToFirst playlistMarker t) := by
  rw [splitOnList, if_neg (by decide)]
  exact splitGo_get1 playlistMarker (by decide) url.length [] url (le_refl _)

theorem codePlaylistId_eq (url : List Char) :
    codePlaylistId url =
      (afterFirst playlistMarker url).map
        (fun t => upToFirst qMarker (upToFirst playlistMarker t)) := by
  rw [codePlaylistId, splitOn_get1]
  cases haf : afterFirst playlistMarker url with
  | none => rfl
  | some t =>
    simp only [Option.map_some']
    refine congrArg some ?_
    rw [splitOnList, if_neg (by decide),
      splitGo_head qMarker _ [] _ (le_refl _)]
    simp

/-- Claim C6 counterexample: the URL
https://open.spotify.com/playlist/abcplaylist/x passes the validation, the
code extracts the Playlist ID "abc", but the substring between `playlist/`
and the next `?` (here: to the end of the string, as no `?` occurs) is
"abcplaylist/x"; the two extractions disagree. -/
theorem claim_C6_counterexample :
    containsSub domainMarker
        ("https://open.spotify.com/playlist/abcplaylist/x".toList) = true ∧
    codePlaylistId ("https://open.spotify.com/playlist/abcplaylist/x".toList) =
      some ("abc".toList) ∧
    specPlaylistId ("https://open.spotify.com/playlist/abcplaylist/x".toList) =
      some ("abcplaylist/x".toList) ∧
    codePlaylistId ("https://open.spotify.com/playlist/abcplaylist/x".toList) ≠
      specPlaylistId ("https://open.spotify.com/playlist/abcplaylist/x".toList) :=
  ⟨by decide, by decide, by decide, by decide⟩

/-- Claim C6 amended: a URL without the canonical marker fails with
InvalidUrlError, the ledger untouched; otherwise the extracted Playlist ID
is the substring following the first `playlist/`, truncated before the
next occurrence of `playlist/` (if any), then truncated before the next
`?` (if any). -/
theorem claim_C6_amended :
    (∀ (url : List Char) (fetcher : List Char → Except Unit (List PlaylistItem))
        (file : Option (List Row)),
      containsSub domainMarker url = false →
      extract_playlist_tracks url fetcher file = (file, Outcome.invalidUrl)) ∧
    (∀ url : List Char,
      codePlaylistId url =
        (afterFirst playlistMarker url).map
          (fun t => upToFirst qMarker (upToFirst playlistMarker t))) := by
  refine ⟨?_, codePlaylistId_eq⟩
  intro url fetcher file h
  rw [extract_playlist_tracks, if_pos h]

/-- Witness for the amended C6 at a concrete invalid URL. -/
theorem claim_C6_amended_witness :
    extract_playlist_tracks ("x".toList) (fun _ => Except.ok []) none =
      (none, Outcome.invalidUrl) :=
  claim_C6_amended.1 ("x".toList) (fun _ => Except.ok []) none (by decide)

/-- Claim C7: a run ending in InvalidUrlError, MalformedIdError or a fetch
error leaves the ledger file state exactly as it was (in particular no
file is created); the URL https://example.com/not-a-playlist yields
InvalidUrlError with no file created. -/
theorem claim_C7_no_mutation_on_error :
    (∀ (url : List Char) (fetcher : List Char → Except Unit (List PlaylistItem))
        (file : Option (List Row)),
      ((extract_playlist_tracks url fetcher file).2 = Outcome.invalidUrl ∨
       (extract_playlist_tracks url fetcher file).2 = Outcome.malformedId ∨
       (extract_playlist_tracks url fetcher file).2 = Outcome.fetchError) →
      (extract_playlist_tracks url fetcher file).1 = file) ∧
    extract_playlist_tracks ("https://example.com/not-a-playlist".toList)
        (fun _ => Except.ok []) none = (none, Outcome.invalidUrl) := by
  refine ⟨?_, by decide⟩
  intro url fetcher file h
  rw [extract_playlist_tracks] at h ⊢
  by_cases hc : containsSub domainMarker url = false
  · rw [if_pos hc]
  · rw [if_neg hc] at h ⊢
    cases hpid : codePlaylistId url with
    | none => simp [hpid]
    | some pid =>
      cases hf : fetcher pid with
      | error e => simp [hpid, hf]
      | ok items => simp [hpid, hf] at h

/-- Witness for C7: the error run at the malformed URL leaves the file
state absent. -/
theorem claim_C7_no_mutation_on_error_witness :
    (extract_playlist_tracks ("https://example.com/not-a-playlist".toList)
        (fun _ => Except.ok []) none).1 = none :=
  claim_C7_no_mutation_on_error.1 ("https://example.com/not-a-playlist".toList)
    (fun _ => Except.ok []) none (Or.inl (by decide))

/-- Claim C10: when the URL contains open.spotify.com/playlist/, the split
on playlist/ has an element 1 and the split on ? always has an element 0,
so the id extraction is total and the MalformedIdError branch is
unreachable (for any url, fetcher and file state). -/
theorem claim_C10_extraction_total :
    (∀ url : List Char, containsSub domainMarker url = true →
      ((splitOnList url playlistMarker).get? 1).isSome = true) ∧
    (∀ p : List Char, splitOnList p qMarker ≠ []) ∧
    (∀ (url : List Char) (fetcher : List Char → Except Unit (List PlaylistItem))
        (file : Option (List Row)),
      (extract_playlist_tracks url fetcher file).2 ≠ Outcome.malformedId) := by
  have key : ∀ url : List Char, containsSub domainMarker url = true →
      ((splitOnList url playlistMarker).get? 1).isSome = true := by
    intro url h
    have hps : containsSub playlistMarker url = true := by
      have hdm : domainMarker = ("open.spotify.com/".toList) ++ playlistMarker := by
        decide
      exact containsSub_append_left playlistMarker ("open.spotify.com/".toList) url
        (hdm ▸ h)
    rw [splitOn_get1]
    have hsome := afterFirst_isSome_of_containsSub playlistMarker url hps
    cases haf : afterFirst playlistMarker url with
    | none => rw [haf] at hsome; simp at hsome
    | some t => simp
  refine ⟨key, ?_, ?_⟩
  · intro p
    rw [splitOnList, if_neg (by decide)]
    exact splitGo_ne_nil qMarker p.length [] p
  · intro url fetcher file
    rw [extract_playlist_tracks]
    by_cases hc : containsSub domainMarker url = false
    · rw [if_pos hc]
      simp
    · have hc' : containsSub domainMarker url = true := by
        cases hcc : containsSub domainMarker url with
        | false => exact absurd hcc hc
        | true => rfl
      obtain ⟨v, hv⟩ := Option.isSome_iff_exists.mp (key url hc')
      have hp : codePlaylistId url = some ((splitOnList v qMarker).getD 0 []) := by
        rw [codePlaylistId, hv]
      rw [if_neg hc, hp]
      split
      · simp_all
      · split
        · simp
        · simp

/-- Witness for C10 at a concrete well-formed playlist URL. -/
theorem claim_C10_extraction_total_witness :
    ((splitOnList ("https://open.spotify.com/playlist/abc?si=1".toList)
        playlistMarker).get? 1).isSome = true :=
  claim_C10_extraction_total.1
    ("https://open.spotify.com/playlist/abc?si=1".toList) (by decide)
